import Mathlib

/-!
# Inventory Reconciliation Engine — verification development

Shallow embedding of the inventory management logic of `src/app/page.tsx`
(the primary revision of the page component).  JavaScript numbers that hold
item quantities and ledger deltas are modelled as `Int`; the item list is a
`List InventoryItem`; the `realTimeChanges` ledger (a JS object keyed by item
id, insertion ordered) is modelled as an insertion-ordered association list
`List (String × Int)`; the derived `itemSummary` object is likewise an
insertion-ordered association list whose values pair a total quantity with a
JS-`Set`-style deduplicated tag list.  Fresh ids (produced in the source by
`Date.now().toString() + Math.random()...`) are taken as explicit parameters.
-/

/-- JavaScript `String.prototype.trim()`: strips leading and trailing
whitespace.  Implemented by structural recursion over the character list so
that concrete instances evaluate inside the kernel. -/
def jsTrim (s : String) : String :=
  ⟨((s.data.dropWhile Char.isWhitespace).reverse.dropWhile Char.isWhitespace).reverse⟩

/-- Splitting a character list at a separator character,
`"a,,b".split(',') = ["a", "", "b"]`-style (`[] ↦ [""]`). -/
def splitOnChar (c : Char) : List Char → List (List Char)
  | [] => [[]]
  | x :: xs =>
    if x = c then [] :: splitOnChar c xs
    else
      match splitOnChar c xs with
      | [] => [[x]]
      | h :: t => (x :: h) :: t

/-- JavaScript `str.split(',')`. -/
def jsSplitComma (s : String) : List String :=
  (splitOnChar ',' s.data).map (fun cs => ⟨cs⟩)

/-- `interface InventoryItem { id: string; name: string; quantity: number; tag?: string }`.
`tag = none` models the absent (`undefined`) tag. -/
structure InventoryItem where
  id : String
  name : String
  quantity : Int
  tag : Option String
deriving DecidableEq, Repr

/-- The component state the reconciliation operations act on:
the `inventory` list and the `realTimeChanges` ledger. -/
structure EngineState where
  inventory : List InventoryItem
  changes : List (String × Int)
deriving DecidableEq, Repr

/-- The initial state: empty inventory, empty ledger (`useState([])`, `useState({})`). -/
def initialState : EngineState := ⟨[], []⟩

/-- Lookup in a JS-object-as-association-list: `obj[k]`, `none` when the key is absent. -/
def ledgerLookup (l : List (String × Int)) (k : String) : Option Int :=
  match l with
  | [] => none
  | (k', v) :: rest => if k' = k then some v else ledgerLookup rest k

/-- `{...obj, [k]: v}`: updates the value in place when the key exists
(keeping its position), appends the key otherwise. -/
def ledgerSet (l : List (String × Int)) (k : String) (v : Int) : List (String × Int) :=
  match l with
  | [] => [(k, v)]
  | (k', v') :: rest => if k' = k then (k', v) :: rest else (k', v') :: ledgerSet rest k v

/-- `delete obj[k]`: removes the key, keeping the order of the others. -/
def ledgerErase (l : List (String × Int)) (k : String) : List (String × Int) :=
  l.filter (fun p => p.1 != k)

/-- `prevInventory.map((item, index) => index === i ? { ...item, quantity: item.quantity + d } : item)`:
adds `d` to the quantity of the element at position `i`. -/
def updateQtyAt (l : List InventoryItem) (i : Nat) (d : Int) : List InventoryItem :=
  match l, i with
  | [], _ => []
  | x :: xs, 0 => { x with quantity := x.quantity + d } :: xs
  | x :: xs, n + 1 => x :: updateQtyAt xs n d

/-- The normalized tag the add form computes:
`newItemTag?.trim() || ''` (absent input and whitespace-only input both become `""`). -/
def normTag (tag : Option String) : String :=
  (tag.map jsTrim).getD ""

/-- The identity predicate `handleAddItem` searches with:
`item.name === trimmedNewItemName && (item.tag || '') === trimmedNewItemTag`. -/
def identityMatch (trimmedName trimmedTag : String) (it : InventoryItem) : Bool :=
  it.name == trimmedName && it.tag.getD "" == trimmedTag

/-- `handleAddItem` (src/app/page.tsx, lines 151-222), with the fresh id supplied
explicitly.  Returns `none` on the validation failure
(`newItemName.trim() === '' || newItemQuantity <= 0`), in which case the source
shows an error toast and returns without touching any state. -/
def handleAddItem (freshId : String) (s : EngineState)
    (newItemName : String) (newItemQuantity : Int) (newItemTag : Option String) :
    Option EngineState :=
  if jsTrim newItemName = "" ∨ newItemQuantity ≤ 0 then
    none
  else
    let trimmedNewItemName := jsTrim newItemName
    let trimmedNewItemTag := normTag newItemTag
    match s.inventory.findIdx? (identityMatch trimmedNewItemName trimmedNewItemTag) with
    | some existingItemIndex =>
      match s.inventory.get? existingItemIndex with
      | some existingItem =>
        -- existing item: quantity += newItemQuantity; ledger[existingId] += newItemQuantity
        some { inventory := updateQtyAt s.inventory existingItemIndex newItemQuantity,
               changes := ledgerSet s.changes existingItem.id
                 ((ledgerLookup s.changes existingItem.id).getD 0 + newItemQuantity) }
      | none => some s  -- unreachable: findIdx? returns an in-bounds index
    | none =>
      -- new item appended; ledger entry initialized to 0
      let newItem : InventoryItem :=
        { id := freshId, name := trimmedNewItemName, quantity := newItemQuantity,
          tag := if trimmedNewItemTag = "" then none else some trimmedNewItemTag }
      some { inventory := s.inventory ++ [newItem],
             changes := ledgerSet s.changes freshId 0 }

/-- `handleUpdateItem` (src/app/page.tsx, lines 232-271), acting on
`selectedItem.id`.  A missing id is a no-op (`if (!originalItem) return`). -/
def handleUpdateItem (s : EngineState) (selectedId : String)
    (editedItemName : String) (editedItemQuantity : Int) (editedItemTag : Option String) :
    EngineState :=
  match s.inventory.find? (fun it => it.id == selectedId) with
  | none => s
  | some originalItem =>
    let trimmedEditedTag := normTag editedItemTag
    let quantityChange := editedItemQuantity - originalItem.quantity
    { inventory := s.inventory.map (fun it =>
        if it.id == selectedId then
          { it with name := jsTrim editedItemName, quantity := editedItemQuantity,
                    tag := if trimmedEditedTag = "" then none else some trimmedEditedTag }
        else it),
      changes := ledgerSet s.changes selectedId
        ((ledgerLookup s.changes selectedId).getD 0 + quantityChange) }

/-- `confirmDeleteItem` (src/app/page.tsx, lines 278-301), acting on
`selectedItem.id`: filters the item out and deletes its ledger key. -/
def confirmDeleteItem (s : EngineState) (selectedId : String) : EngineState :=
  { inventory := s.inventory.filter (fun it => it.id != selectedId),
    changes := ledgerErase s.changes selectedId }

/-- `handleQuantityChange` (src/app/page.tsx, lines 304-338): clamps the new
quantity at 0, and ledgers the *actual* applied change, touching the ledger
only when that applied change is non-zero. -/
def handleQuantityChange (s : EngineState) (itemId : String) (change : Int) : EngineState :=
  match s.inventory.find? (fun it => it.id == itemId) with
  | none => s
  | some originalItem =>
    let originalQuantity := originalItem.quantity
    let newQuantity := max 0 (originalQuantity + change)
    let actualChangeApplied := newQuantity - originalQuantity
    { inventory := s.inventory.map (fun it =>
        if it.id == itemId then { it with quantity := newQuantity } else it),
      changes :=
        if actualChangeApplied ≠ 0 then
          ledgerSet s.changes itemId
            ((ledgerLookup s.changes itemId).getD 0 + actualChangeApplied)
        else s.changes }

/-- A parsed CSV row as the Papa-parse `complete` callback hands it over
(`header: true`).  `name` is the raw `name` field (`""` when absent);
`quantity = none` models an absent `quantity` field (such rows are filtered
out by the source); a present but non-numeric field, which the source's
`Number(row.quantity) || 0` turns into `0`, is modelled as `some 0`;
`tag = none` models an absent `tag` field. -/
structure CsvRow where
  name : String
  quantity : Option Int
  tag : Option String
deriving DecidableEq, Repr

/-- The row filter of `handleImportCSV`:
`row.name && row.name.trim() !== '' && row.quantity !== undefined`. -/
def rowValid (r : CsvRow) : Bool :=
  r.name != "" && jsTrim r.name != "" && r.quantity.isSome

/-- Builds the imported `InventoryItem` from a row:
`{ id, name: row.name.trim(), quantity: Number(row.quantity) || 0,
   tag: row.tag?.trim() || undefined }`. -/
def rowToItem (freshId : String) (r : CsvRow) : InventoryItem :=
  { id := freshId, name := jsTrim r.name, quantity := r.quantity.getD 0,
    tag := match r.tag with
           | none => none
           | some t => if jsTrim t = "" then none else some (jsTrim t) }

/-- Maps the filtered rows to items, drawing fresh ids from the supply
`fids` in order (the source generates one id per row inside `.map`). -/
def rowsToItems (fids : Nat → String) (k : Nat) : List CsvRow → List InventoryItem
  | [] => []
  | r :: rs => rowToItem (fids k) r :: rowsToItems fids (k + 1) rs

/-- One iteration of the `importedInventory.forEach(newItem => ...)` merge loop
of `handleImportCSV` (src/app/page.tsx, lines 378-393): the identity lookup is
against `mergedInventory`, the batch-in-progress list. -/
def mergeStep (acc : List InventoryItem × List (String × Int)) (newItem : InventoryItem) :
    List InventoryItem × List (String × Int) :=
  let merged := acc.1
  let changesToApply := acc.2
  match merged.findIdx? (fun ex => ex.name == newItem.name && ex.tag.getD "" == newItem.tag.getD "") with
  | some existingIndex =>
    match merged.get? existingIndex with
    | some existingItem =>
      let originalQuantity := existingItem.quantity
      let merged' := updateQtyAt merged existingIndex newItem.quantity
      let newQuantity := ((merged'.get? existingIndex).map InventoryItem.quantity).getD 0
      (merged',
       ledgerSet changesToApply existingItem.id
         ((ledgerLookup changesToApply existingItem.id).getD 0 + (newQuantity - originalQuantity)))
    | none => acc  -- unreachable: findIdx? returns an in-bounds index
  | none =>
    (merged ++ [newItem], ledgerSet changesToApply newItem.id 0)

/-- The `setRealTimeChanges` update at the end of the import
(src/app/page.tsx, lines 396-410): for every tracked id, either accumulates
the change onto the existing/non-zero entry or initializes the entry to 0. -/
def applyImportChanges (ledger : List (String × Int)) :
    List (String × Int) → List (String × Int)
  | [] => ledger
  | (itemId, v) :: rest =>
    let ledger' :=
      if (ledgerLookup ledger itemId).isSome ∨ v ≠ 0 then
        ledgerSet ledger itemId ((ledgerLookup ledger itemId).getD 0 + v)
      else
        ledgerSet ledger itemId 0
    applyImportChanges ledger' rest

/-- `handleImportCSV` (src/app/page.tsx, lines 341-438), restricted to its
state transition on an already-parsed row list (CSV byte parsing and the
parse-error path stay outside the engine boundary).  Fresh ids are supplied
by `fids`. -/
def handleImportCSV (fids : Nat → String) (s : EngineState) (rows : List CsvRow) :
    EngineState :=
  let importedInventory := rowsToItems fids 0 (rows.filter rowValid)
  let result := importedInventory.foldl mergeStep (s.inventory, [])
  { inventory := result.1, changes := applyImportChanges s.changes result.2 }

/-- Minimal CSV field quoting as `Papa.unparse` performs it. -/
def csvField (f : String) : String :=
  if f.contains ',' || f.contains '"' || f.contains '\n' || f.contains '\r' then
    "\"" ++ f.replace "\"" "\"\"" ++ "\""
  else f

/-- `Papa.unparse({fields: ["name","quantity","tag"], data: ...})` over the
item list with the tag defaulted to the empty string. -/
def papaUnparse (items : List InventoryItem) : String :=
  String.intercalate "\r\n"
    (String.intercalate "," ["name", "quantity", "tag"] ::
      items.map (fun it =>
        String.intercalate ","
          [csvField it.name, csvField (toString it.quantity), csvField (it.tag.getD "")]))

/-- `handleExportCSV` (src/app/page.tsx, lines 441-468): on an empty inventory
it shows an info toast and returns without producing any CSV; otherwise it
hands the unparsed CSV text to the download collaborator.  The state is
returned unchanged alongside (the handler performs no state mutation). -/
def handleExportCSV (s : EngineState) : Option String × EngineState :=
  if s.inventory.length = 0 then
    (none, s)
  else
    (some (papaUnparse s.inventory), s)

/-- Sort columns the table headers offer. -/
inductive SortColumn
  | name
  | quantity
  | tag
deriving DecidableEq, Repr

/-- Sort directions. -/
inductive SortDirection
  | asc
  | desc
deriving DecidableEq, Repr

/-- `const direction = sortDirection === 'asc' ? 1 : -1`. -/
def dirMult : SortDirection → Int
  | .asc => 1
  | .desc => -1

/-- The JS value `a[sortColumn]` takes: a string, a number, or `undefined`. -/
inductive SortValue
  | str (s : String)
  | num (n : Int)
  | undef
deriving DecidableEq, Repr

/-- The column accessor `a[sortColumn]`. -/
def colValue : SortColumn → InventoryItem → SortValue
  | .name, it => .str it.name
  | .quantity, it => .num it.quantity
  | .tag, it => match it.tag with
                | none => .undef
                | some t => .str t

/-- `aValue === undefined || aValue === null || aValue === ''`
(a number is never strictly equal to `''`). -/
def isNilValue : SortValue → Bool
  | .undef => true
  | .str s => s == ""
  | .num _ => false

/-- `String(aValue)` for the non-numeric comparison branch. -/
def valueToString : SortValue → String
  | .str s => s
  | .num n => toString n
  | .undef => "undefined"

/-- The comparator of `sortedInventory` (src/app/page.tsx, lines 489-511).
`collator` stands for `(a, b) => a.localeCompare(b, undefined, {numeric: true})`,
whose locale-dependent behaviour is left abstract. -/
def compareItems (collator : String → String → Int) (col : SortColumn)
    (dir : SortDirection) (a b : InventoryItem) : Int :=
  let direction := dirMult dir
  let aValue := colValue col a
  let bValue := colValue col b
  let aIsNil := isNilValue aValue
  let bIsNil := isNilValue bValue
  if aIsNil && bIsNil then 0
  else if aIsNil then -1 * direction
  else if bIsNil then 1 * direction
  else
    match aValue, bValue with
    | .num x, .num y => (x - y) * direction
    | av, bv => collator (valueToString av) (valueToString bv) * direction

/-- Stable insertion of `x` into an already comparator-ordered list: `x` goes
before the first element it compares strictly below, after equals —
the ordering a spec-conforming stable `Array.prototype.sort` produces. -/
def insertSorted (cmp : InventoryItem → InventoryItem → Int) (x : InventoryItem) :
    List InventoryItem → List InventoryItem
  | [] => [x]
  | y :: ys => if cmp x y < 0 then x :: y :: ys else y :: insertSorted cmp x ys

/-- Stable comparator sort, processing elements left to right. -/
def sortByCmp (cmp : InventoryItem → InventoryItem → Int) (l : List InventoryItem) :
    List InventoryItem :=
  l.foldl (fun acc x => insertSorted cmp x acc) []

/-- `sortedInventory` (src/app/page.tsx, lines 485-512): the inventory sorted
by the column comparator (modelled by a stable comparator sort). -/
def sortedInventory (collator : String → String → Int) (s : EngineState)
    (col : SortColumn) (dir : SortDirection) : List InventoryItem :=
  sortByCmp (compareItems collator col dir) s.inventory

/-- JS-`Set`-style add: append the element unless it is already present. -/
def addTag (ts : List String) (t : String) : List String :=
  if t ∈ ts then ts else ts ++ [t]

/-- Tag-label extraction of `itemSummary`:
`item.tag && item.tag.trim() !== ''` guards
`item.tag.split(',').map(tag => tag.trim()).filter(tag => tag !== '')`. -/
def parseTags : Option String → List String
  | none => []
  | some t =>
    if jsTrim t = "" then []
    else ((jsSplitComma t).map jsTrim).filter (fun x => x != "")

/-- One `reduce` step of `itemSummary`: ensure the bucket for the item's name
exists (`{quantity: 0, tags: new Set()}`), add the quantity, add the parsed
tag labels to the bucket's set. -/
def summaryInsert (key : String) (qty : Int) (tags : List String) :
    List (String × Int × List String) → List (String × Int × List String)
  | [] => [(key, 0 + qty, tags.foldl addTag [])]
  | (k, q, ts) :: rest =>
    if k = key then (k, q + qty, tags.foldl addTag ts) :: rest
    else (k, q, ts) :: summaryInsert key qty tags rest

/-- `itemSummary` (src/app/page.tsx, lines 515-533): per-name buckets of total
quantity and deduplicated tag labels, built by a left fold over the inventory. -/
def itemSummary (inv : List InventoryItem) : List (String × Int × List String) :=
  inv.foldl (fun acc it => summaryInsert it.name it.quantity (parseTags it.tag) acc) []

/-- Bucket lookup in the summary object. -/
def summaryLookup (m : List (String × Int × List String)) (k : String) :
    Option (Int × List String) :=
  match m with
  | [] => none
  | (k', v) :: rest => if k' = k then some v else summaryLookup rest k

/-- A concrete stand-in collator for a closed sort evaluation (its value is
irrelevant to nil placement: nil comparisons return before it is consulted). -/
def collatorLex (a b : String) : Int :=
  if a < b then -1 else if b < a then 1 else 0

/-- An item carrying a tag, for the sort-placement example. -/
def itemWithTag : InventoryItem :=
  { id := "1", name := "apple", quantity := 1, tag := some "a" }

/-- An item with an absent tag, for the sort-placement example. -/
def itemNoTag : InventoryItem :=
  { id := "2", name := "banana", quantity := 2, tag := none }

/-- The duplicate-row import batch of the batch-merge example:
two rows `name="Milk", tag=""` with quantities 2 and 4. -/
def milkRows : List CsvRow :=
  [{ name := "Milk", quantity := some 2, tag := some "" },
   { name := "Milk", quantity := some 4, tag := some "" }]

/-- Total quantity of the items carrying a given exact name. -/
def sumQtyByName : List InventoryItem → String → Int
  | [], _ => 0
  | it :: rest, n => (if it.name = n then it.quantity else 0) + sumQtyByName rest n

/-- The quantity already accumulated in a summary bucket (0 for a fresh one). -/
def baseQty (o : Option (Int × List String)) : Int :=
  match o with
  | none => 0
  | some p => p.1

/-- The tag set already collected in a summary bucket (empty for a fresh one). -/
def baseTags (o : Option (Int × List String)) : List String :=
  match o with
  | none => []
  | some p => p.2

/-- The two-item Apple inventory of the summary example. -/
def appleList : List InventoryItem :=
  [{ id := "1", name := "Apple", quantity := 5, tag := some "red" },
   { id := "2", name := "Apple", quantity := 3, tag := some "sweet, red" }]

/-- One engine operation, as the UI can trigger it.  The edit dialog's
quantity input clamps at 0 (`Math.max(0, Number(e.target.value))`,
src/app/page.tsx line 779), so `handleUpdateItem` is only ever invoked with a
non-negative quantity. -/
inductive EngineStep : EngineState → EngineState → Prop
  | add (fid name tag s s') (qty : Int) :
      handleAddItem fid s name qty tag = some s' → EngineStep s s'
  | edit (sid name tag s) (qty : Int) :
      0 ≤ qty → EngineStep s (handleUpdateItem s sid name qty tag)
  | delete (sid s) : EngineStep s (confirmDeleteItem s sid)
  | adjust (iid s) (change : Int) : EngineStep s (handleQuantityChange s iid change)
  | importCsv (fids s rows) : EngineStep s (handleImportCSV fids s rows)

/-- States reachable from the freshly loaded empty session. -/
def Reachable (s : EngineState) : Prop :=
  Relation.ReflTransGen EngineStep initialState s

/-- Every ledger key belongs to an item currently in the inventory. -/
def LedgerKeysSound (s : EngineState) : Prop :=
  ∀ k, (ledgerLookup s.changes k).isSome = true →
    k ∈ s.inventory.map (fun it => it.id)

section LedgerLemmas

theorem ledgerLookup_set_self (l : List (String × Int)) (k : String) (v : Int) :
    ledgerLookup (ledgerSet l k v) k = some v := by
  induction l with
  | nil => simp [ledgerSet, ledgerLookup]
  | cons p rest ih =>
    obtain ⟨k', v'⟩ := p
    by_cases h : k' = k
    · simp [ledgerSet, ledgerLookup, h]
    · simp [ledgerSet, ledgerLookup, h, ih]

theorem ledgerLookup_set_other (l : List (String × Int)) (k k' : String) (v : Int)
    (h : k' ≠ k) : ledgerLookup (ledgerSet l k v) k' = ledgerLookup l k' := by
  induction l with
  | nil => simp [ledgerSet, ledgerLookup, Ne.symm h]
  | cons p rest ih =>
    obtain ⟨k₀, v₀⟩ := p
    by_cases hk : k₀ = k
    · subst hk
      simp [ledgerSet, ledgerLookup, Ne.symm h]
    · simp [ledgerSet, ledgerLookup, hk, ih]

theorem ledgerLookup_erase_self (l : List (String × Int)) (k : String) :
    ledgerLookup (ledgerErase l k) k = none := by
  induction l with
  | nil => simp [ledgerErase, ledgerLookup]
  | cons p rest ih =>
    obtain ⟨k', v'⟩ := p
    by_cases h : k' = k
    · subst h
      simpa [ledgerErase, List.filter_cons] using ih
    · simpa [ledgerErase, List.filter_cons, h, ledgerLookup] using ih

theorem ledgerLookup_eq_none_iff (l : List (String × Int)) (k : String) :
    ledgerLookup l k = none ↔ ∀ p ∈ l, p.1 ≠ k := by
  induction l with
  | nil => simp [ledgerLookup]
  | cons p rest ih =>
    obtain ⟨k', v'⟩ := p
    by_cases h : k' = k
    · simp [ledgerLookup, h]
    · simp [ledgerLookup, h, ih]

theorem ledgerErase_of_absent (l : List (String × Int)) (k : String)
    (h : ledgerLookup l k = none) : ledgerErase l k = l := by
  induction l with
  | nil => rfl
  | cons p rest ih =>
    obtain ⟨k', v'⟩ := p
    have hk : k' ≠ k := by
      intro hh
      simp [ledgerLookup, hh] at h
    have h' : ledgerLookup rest k = none := by
      simpa [ledgerLookup, hk] using h
    simp only [ledgerErase, List.filter_cons, bne_iff_ne, ne_eq, hk, not_false_eq_true,
      if_pos, ite_true]
    have := ih h'
    simp only [ledgerErase] at this
    rw [this]

theorem ledgerErase_idem (l : List (String × Int)) (k : String) :
    ledgerErase (ledgerErase l k) k = ledgerErase l k :=
  ledgerErase_of_absent _ _ (ledgerLookup_erase_self l k)

end LedgerLemmas

section FindLemmas

/-- Updating the quantity of the items matching an id commutes with finding
the first item with that id. -/
theorem find?_map_setQty (l : List InventoryItem) (i : String) (q : Int)
    (it : InventoryItem) (h : l.find? (fun x => x.id == i) = some it) :
    (l.map (fun x => if x.id == i then { x with quantity := q } else x)).find?
      (fun x => x.id == i) = some { it with quantity := q } := by
  induction l with
  | nil => simp at h
  | cons y ys ih =>
    simp only [List.map_cons]
    by_cases hy : (y.id == i) = true
    · simp [hy] at h
      subst h
      simp [hy]
    · simp [hy] at h
      simp only [List.map_cons, if_neg hy]
      rw [@List.find?_cons_of_neg _ (fun x => x.id == i) y
        (List.map (fun x => if x.id == i then { x with quantity := q } else x) ys) hy]
      exact ih h

end FindLemmas

section AppendLemmas

theorem findIdx?_append_singleton {α : Type} (l : List α) (x : α) (p : α → Bool)
    (hl : ∀ y ∈ l, p y = false) (hx : p x = true) :
    (l ++ [x]).findIdx? p = some l.length := by
  induction l with
  | nil => simp [hx]
  | cons y ys ih =>
    have hy := hl y (by simp)
    simp [hy, List.findIdx?_succ, ih (fun z hz => hl z (by simp [hz]))]

theorem get?_append_length {α : Type} (l : List α) (x : α) :
    (l ++ [x]).get? l.length = some x := by
  induction l with
  | nil => rfl
  | cons y ys ih =>
    simp only [List.cons_append, List.length_cons, List.get?_cons_succ]
    exact ih

theorem updateQtyAt_append_length (l : List InventoryItem) (x : InventoryItem) (d : Int) :
    updateQtyAt (l ++ [x]) l.length d = l ++ [{ x with quantity := x.quantity + d }] := by
  induction l with
  | nil => rfl
  | cons y ys ih => simpa [updateQtyAt] using ih

end AppendLemmas

/-- **C2.** With valid inputs and no item matching the `(trimmed name,
absent-normalized tag)` identity in the starting state, two successive
`Add(name, qty, tag)` calls leave exactly one item with that identity, and
its quantity is `2 * qty`: the second add accumulates instead of duplicating. -/
theorem add_twice_accumulates (fid1 fid2 : String) (s : EngineState)
    (name : String) (qty : Int) (tag : Option String)
    (hname : jsTrim name ≠ "") (hqty : 0 < qty)
    (hnone : ∀ it ∈ s.inventory, identityMatch (jsTrim name) (normTag tag) it = false) :
    ∃ s1 s2, handleAddItem fid1 s name qty tag = some s1
      ∧ handleAddItem fid2 s1 name qty tag = some s2
      ∧ (s2.inventory.filter (identityMatch (jsTrim name) (normTag tag))).length = 1
      ∧ ∀ it ∈ s2.inventory, identityMatch (jsTrim name) (normTag tag) it = true →
          it.quantity = 2 * qty := by
  have hval : ¬(jsTrim name = "" ∨ qty ≤ 0) := by
    push_neg
    exact ⟨hname, by omega⟩
  have hnewtag :
      (if normTag tag = "" then none else some (normTag tag) : Option String).getD ""
        = normTag tag := by
    by_cases h : normTag tag = "" <;> simp [h]
  have hpnew : identityMatch (jsTrim name) (normTag tag)
      { id := fid1, name := jsTrim name, quantity := qty,
        tag := if normTag tag = "" then none else some (normTag tag) } = true := by
    simp [identityMatch, hnewtag]
  have h1 : handleAddItem fid1 s name qty tag
      = some { inventory := s.inventory ++
                 [{ id := fid1, name := jsTrim name, quantity := qty,
                    tag := if normTag tag = "" then none else some (normTag tag) }],
               changes := ledgerSet s.changes fid1 0 } := by
    unfold handleAddItem
    rw [if_neg hval]
    simp only [List.findIdx?_eq_none_iff.mpr hnone]
  have hfind2 : (s.inventory ++
      [({ id := fid1, name := jsTrim name, quantity := qty,
          tag := if normTag tag = "" then none else some (normTag tag) } :
        InventoryItem)]).findIdx?
        (identityMatch (jsTrim name) (normTag tag)) = some s.inventory.length :=
    findIdx?_append_singleton _ _ _ hnone hpnew
  have h2 : handleAddItem fid2
      { inventory := s.inventory ++
                 [{ id := fid1, name := jsTrim name, quantity := qty,
                    tag := if normTag tag = "" then none else some (normTag tag) }],
        changes := ledgerSet s.changes fid1 0 } name qty tag
      = some { inventory := s.inventory ++
                 [{ id := fid1, name := jsTrim name, quantity := qty + qty,
                    tag := if normTag tag = "" then none else some (normTag tag) }],
               changes := ledgerSet (ledgerSet s.changes fid1 0) fid1
                 ((ledgerLookup (ledgerSet s.changes fid1 0) fid1).getD 0 + qty) } := by
    unfold handleAddItem
    rw [if_neg hval]
    simp only [hfind2, get?_append_length, updateQtyAt_append_length]
  refine ⟨_, _, h1, h2, ?_, ?_⟩
  · rw [List.filter_append, List.filter_eq_nil_iff.mpr (fun a ha => by simp [hnone a ha])]
    simp [identityMatch, hnewtag]
  · intro it hit hmatch
    rcases List.mem_append.mp hit with hmem | hmem
    · rw [hnone it hmem] at hmatch
      cases hmatch
    · simp only [List.mem_singleton] at hmem
      subst hmem
      simp only []
      ring

/-- **C2 witness.** Adding `("A", 2, no tag)` twice to the empty inventory
leaves a single matching item of quantity 4. -/
theorem add_twice_accumulates_witness :
    ∃ s1 s2, handleAddItem "i" initialState "A" 2 none = some s1
      ∧ handleAddItem "j" s1 "A" 2 none = some s2
      ∧ (s2.inventory.filter (identityMatch (jsTrim "A") (normTag none))).length = 1
      ∧ ∀ it ∈ s2.inventory, identityMatch (jsTrim "A") (normTag none) it = true →
          it.quantity = 2 * 2 :=
  add_twice_accumulates "i" "j" initialState "A" 2 none (by decide) (by decide)
    (fun it hit => absurd hit (List.not_mem_nil it))

/-- **C3.** Importing two rows that share the `("Milk", empty tag)` identity
into an inventory with no matching item merges the second row into the item
the first row created inside the same batch: exactly one "Milk" item results,
with the summed quantity 6. -/
theorem import_merges_batch_duplicates (fids : Nat → String) (s : EngineState)
    (hnone : ∀ it ∈ s.inventory,
      (it.name == "Milk" && it.tag.getD "" == "") = false) :
    (handleImportCSV fids s milkRows).inventory
        = s.inventory ++ [{ id := fids 0, name := "Milk", quantity := 6, tag := none }]
    ∧ ((handleImportCSV fids s milkRows).inventory.filter
        (fun it => it.name == "Milk" && it.tag.getD "" == "")).length = 1 := by
  have e0 : milkRows.filter rowValid = milkRows := by decide
  have etrim : jsTrim "Milk" = "Milk" := by decide
  have etag : jsTrim "" = "" := by decide
  have eitems : rowsToItems fids 0 (milkRows.filter rowValid)
      = [{ id := fids 0, name := "Milk", quantity := 2, tag := none },
         { id := fids 1, name := "Milk", quantity := 4, tag := none }] := by
    rw [e0]
    simp [rowsToItems, rowToItem, milkRows, etrim, etag]
  have hf1 : s.inventory.findIdx?
      (fun ex => ex.name == "Milk" && ex.tag.getD "" == "") = none :=
    List.findIdx?_eq_none_iff.mpr hnone
  have hstep1 : mergeStep (s.inventory, [])
      { id := fids 0, name := "Milk", quantity := 2, tag := none }
      = (s.inventory ++ [{ id := fids 0, name := "Milk", quantity := 2, tag := none }],
         ledgerSet [] (fids 0) 0) := by
    unfold mergeStep
    simp only [Option.getD_none]
    rw [hf1]
  have hfind2 : (s.inventory ++
      [({ id := fids 0, name := "Milk", quantity := 2, tag := none } :
        InventoryItem)]).findIdx?
        (fun ex => ex.name == "Milk" && ex.tag.getD "" == "") = some s.inventory.length :=
    findIdx?_append_singleton _ _ _ hnone (by simp)
  have hstep2 : mergeStep
      (s.inventory ++ [{ id := fids 0, name := "Milk", quantity := 2, tag := none }],
       ledgerSet [] (fids 0) 0)
      { id := fids 1, name := "Milk", quantity := 4, tag := none }
      = (s.inventory ++ [{ id := fids 0, name := "Milk", quantity := 6, tag := none }],
         ledgerSet (ledgerSet [] (fids 0) 0) (fids 0)
           ((ledgerLookup (ledgerSet [] (fids 0) 0) (fids 0)).getD 0 + 4)) := by
    unfold mergeStep
    simp only [Option.getD_none]
    rw [hfind2]
    simp only [get?_append_length, updateQtyAt_append_length]
    norm_num
  have hinv : (handleImportCSV fids s milkRows).inventory
      = s.inventory ++ [{ id := fids 0, name := "Milk", quantity := 6, tag := none }] := by
    unfold handleImportCSV
    rw [eitems]
    simp only [List.foldl_cons, List.foldl_nil, hstep1, hstep2]
  refine ⟨hinv, ?_⟩
  rw [hinv, List.filter_append,
    List.filter_eq_nil_iff.mpr (fun a ha => by simp [hnone a ha])]
  simp

/-- **C3 witness.** The two-row Milk batch imported into the empty inventory
yields the single merged item of quantity 6. -/
theorem import_merges_batch_duplicates_witness :
    (handleImportCSV (fun _ => "id") initialState milkRows).inventory
        = [{ id := "id", name := "Milk", quantity := 6, tag := none }]
    ∧ ((handleImportCSV (fun _ => "id") initialState milkRows).inventory.filter
        (fun it => it.name == "Milk" && it.tag.getD "" == "")).length = 1 := by
  have h := import_merges_batch_duplicates (fun _ => "id") initialState
    (fun it hit => absurd hit (List.not_mem_nil it))
  exact ⟨h.1, h.2⟩

/-- **C1.** `AdjustQuantity(i, d)` on a state whose (first) item with id `i`
has quantity `q` stores quantity `max 0 (q + d)` on that item and adds exactly
the applied delta `max 0 (q + d) - q` — not the requested `d` — to the ledger
value for `i` (an absent ledger entry reading as 0). -/
theorem adjust_clamps_and_ledgers_applied_delta
    (s : EngineState) (i : String) (d : Int) (it : InventoryItem)
    (hfind : s.inventory.find? (fun x => x.id == i) = some it) :
    (handleQuantityChange s i d).inventory.find? (fun x => x.id == i)
        = some { it with quantity := max 0 (it.quantity + d) }
    ∧ (ledgerLookup (handleQuantityChange s i d).changes i).getD 0
        = (ledgerLookup s.changes i).getD 0 + (max 0 (it.quantity + d) - it.quantity) := by
  unfold handleQuantityChange
  rw [hfind]
  constructor
  · exact find?_map_setQty s.inventory i (max 0 (it.quantity + d)) it hfind
  · by_cases h0 : max 0 (it.quantity + d) - it.quantity = 0
    · simp [h0]
    · simp [h0, ledgerLookup_set_self]

/-- **C1 witness.** `AdjustQuantity(i, -1000)` on an item with quantity 3
yields quantity 0 and a ledger increment of `-3`. -/
theorem adjust_clamps_and_ledgers_applied_delta_witness :
    (handleQuantityChange ⟨[⟨"a", "x", 3, none⟩], []⟩ "a" (-1000)).inventory.find?
        (fun x => x.id == "a") = some ⟨"a", "x", 0, none⟩
    ∧ (ledgerLookup (handleQuantityChange ⟨[⟨"a", "x", 3, none⟩], []⟩ "a" (-1000)).changes
        "a").getD 0 = -3 := by
  have h := adjust_clamps_and_ledgers_applied_delta
    ⟨[⟨"a", "x", 3, none⟩], []⟩ "a" (-1000) ⟨"a", "x", 3, none⟩ rfl
  refine ⟨?_, ?_⟩
  · rw [h.1]; decide
  · rw [h.2]; decide

/-- **C9.** When the clamped new quantity equals the old quantity — applied
delta 0, e.g. a decrement on an item already at 0 — `AdjustQuantity` leaves
the ledger entirely unchanged, even for a non-zero requested delta. -/
theorem adjust_applied_zero_leaves_ledger
    (s : EngineState) (i : String) (d : Int) (it : InventoryItem)
    (hfind : s.inventory.find? (fun x => x.id == i) = some it)
    (hclamp : max 0 (it.quantity + d) = it.quantity) :
    (handleQuantityChange s i d).changes = s.changes := by
  unfold handleQuantityChange
  rw [hfind]
  have h0 : max 0 (it.quantity + d) - it.quantity = 0 := by omega
  simp [h0]

/-- **C9 witness.** Decrementing an item already at quantity 0 leaves the
(empty) ledger untouched. -/
theorem adjust_applied_zero_leaves_ledger_witness :
    (handleQuantityChange ⟨[⟨"a", "x", 0, none⟩], []⟩ "a" (-1)).changes = [] := by
  exact adjust_applied_zero_leaves_ledger
    ⟨[⟨"a", "x", 0, none⟩], []⟩ "a" (-1) ⟨"a", "x", 0, none⟩ rfl (by decide)

/-- **C6.** `Add` fails with a validation error — modelled by returning `none`,
the source showing the error toast and returning with no state change —
exactly when the trimmed name is empty or the quantity is non-positive. -/
theorem add_validation_error_iff (fid : String) (s : EngineState)
    (name : String) (qty : Int) (tag : Option String) :
    handleAddItem fid s name qty tag = none ↔ (jsTrim name = "" ∨ qty ≤ 0) := by
  unfold handleAddItem
  by_cases h : jsTrim name = "" ∨ qty ≤ 0
  · simp [h]
  · simp only [h, if_false, iff_false]
    intro hcontra
    split at hcontra
    · split at hcontra <;> simp_all
    · simp_all

/-- **C6 witness.** Adding with an empty name is rejected. -/
theorem add_validation_error_iff_witness :
    handleAddItem "i" initialState "" 5 none = none :=
  (add_validation_error_iff "i" initialState "" 5 none).mpr (Or.inl (by decide))

/-- **C10.** `ExportCSV` on an empty item list produces no CSV at all — no
text is handed to the export collaborator — and leaves the state unchanged,
instead of emitting a header-only CSV. -/
theorem export_empty_inventory_no_csv (s : EngineState) (h : s.inventory = []) :
    handleExportCSV s = (none, s) := by
  simp [handleExportCSV, h]

/-- **C10 witness.** Exporting the initial empty state yields nothing. -/
theorem export_empty_inventory_no_csv_witness :
    handleExportCSV initialState = (none, initialState) :=
  export_empty_inventory_no_csv initialState rfl

/-- **C5 (code bug).** Importing a CSV row whose quantity field parses to a
negative number (`Number("-5") = -5` is truthy, so `Number(row.quantity) || 0`
keeps it, and no clamp is applied on the import path) drives an item quantity
below 0, violating the `quantity ≥ 0` invariant every other operation of the
source enforces. -/
theorem import_negative_quantity_breaks_invariant :
    (handleImportCSV (fun _ => "id0") initialState [⟨"A", some (-5), none⟩]).inventory
        = [⟨"id0", "A", -5, none⟩]
    ∧ ∃ it ∈ (handleImportCSV (fun _ => "id0") initialState
        [⟨"A", some (-5), none⟩]).inventory, it.quantity < 0 := by
  refine ⟨rfl, ⟨"id0", "A", -5, none⟩, by decide, by decide⟩


section SortPairwise

theorem mem_insertSorted (cmp : InventoryItem → InventoryItem → Int)
    (x z : InventoryItem) (l : List InventoryItem) (hz : z ∈ insertSorted cmp x l) :
    z = x ∨ z ∈ l := by
  induction l with
  | nil => simpa [insertSorted] using hz
  | cons y ys ih =>
    by_cases hc : cmp x y < 0
    · simpa [insertSorted, hc] using hz
    · simp only [insertSorted, if_neg hc, List.mem_cons] at hz
      rcases hz with rfl | hz
      · exact Or.inr (List.mem_cons_self z ys)
      · rcases ih hz with h | h
        · exact Or.inl h
        · exact Or.inr (List.mem_cons_of_mem y h)

/-- Inserting into a list in which every element satisfying `q` precedes every
element not satisfying it keeps that shape, provided the comparator sends
`q`-elements strictly below non-`q`-elements. -/
theorem insertSorted_pairwise (q : InventoryItem → Bool)
    (cmp : InventoryItem → InventoryItem → Int)
    (hq1 : ∀ a b, q a = true → q b = false → cmp a b < 0)
    (hq2 : ∀ a b, q a = false → q b = true → ¬ cmp a b < 0)
    (x : InventoryItem) (l : List InventoryItem)
    (hl : l.Pairwise (fun a b => q b = true → q a = true)) :
    (insertSorted cmp x l).Pairwise (fun a b => q b = true → q a = true) := by
  induction l with
  | nil => simp [insertSorted]
  | cons y ys ih =>
    rcases List.pairwise_cons.mp hl with ⟨hy, hys⟩
    by_cases hc : cmp x y < 0
    · simp only [insertSorted, if_pos hc]
      refine List.pairwise_cons.mpr ⟨?_, hl⟩
      intro z hz hqz
      by_cases hqx : q x = true
      · exact hqx
      · exfalso
        have hqx' : q x = false := by simpa using hqx
        have hqy : q y = false := by
          by_cases h : q y = true
          · exact absurd hc (hq2 x y hqx' h)
          · simpa using h
        rcases List.mem_cons.mp hz with rfl | hz'
        · rw [hqy] at hqz
          cases hqz
        · rw [hqy] at hy
          have := hy z hz' hqz
          cases this
    · simp only [insertSorted, if_neg hc]
      refine List.pairwise_cons.mpr ⟨?_, ih hys⟩
      intro z hz hqz
      rcases mem_insertSorted cmp x z ys hz with rfl | hzys
      · by_cases hqy : q y = true
        · exact hqy
        · exact absurd (hq1 z y hqz (by simpa using hqy)) hc
      · exact hy z hzys hqz

theorem sortByCmp_pairwise (q : InventoryItem → Bool)
    (cmp : InventoryItem → InventoryItem → Int)
    (hq1 : ∀ a b, q a = true → q b = false → cmp a b < 0)
    (hq2 : ∀ a b, q a = false → q b = true → ¬ cmp a b < 0)
    (l : List InventoryItem) :
    (sortByCmp cmp l).Pairwise (fun a b => q b = true → q a = true) := by
  unfold sortByCmp
  suffices h : ∀ acc, acc.Pairwise (fun a b => q b = true → q a = true) →
      (l.foldl (fun acc x => insertSorted cmp x acc) acc).Pairwise
        (fun a b => q b = true → q a = true) from h [] (by simp)
  induction l with
  | nil => exact fun acc hacc => hacc
  | cons y ys ih =>
    intro acc hacc
    exact ih _ (insertSorted_pairwise q cmp hq1 hq2 y acc hacc)

end SortPairwise

/-- **C4 counterexample.** Sorting by tag in ascending direction places the
absent-tag item *first*, not last as claimed: the comparator returns
`-1 * direction` for a nil left value (source comment: "Place nil first in
asc"). -/
theorem sort_nil_placement_counterexample :
    sortedInventory collatorLex ⟨[itemWithTag, itemNoTag], []⟩ .tag .asc
        = [itemNoTag, itemWithTag]
    ∧ isNilValue (colValue .tag itemNoTag) = true
    ∧ isNilValue (colValue .tag itemWithTag) = false := by
  decide

/-- **C4 (amended).** In every sorted view, for every column and any collator:
ascending direction places all absent/empty values *first* (each pair of output
positions has a nil value on the later position only if the earlier one is nil
too), and descending direction places them *last* — the reverse of the claimed
placement. -/
theorem sort_nil_placement_amended (collator : String → String → Int)
    (s : EngineState) (col : SortColumn) :
    (sortedInventory collator s col .asc).Pairwise
        (fun a b => isNilValue (colValue col b) = true → isNilValue (colValue col a) = true)
    ∧ (sortedInventory collator s col .desc).Pairwise
        (fun a b => isNilValue (colValue col a) = true → isNilValue (colValue col b) = true) := by
  constructor
  · exact sortByCmp_pairwise (fun it => isNilValue (colValue col it)) _
      (fun a b ha hb => by simp [compareItems, dirMult, ha, hb])
      (fun a b ha hb => by simp [compareItems, dirMult, ha, hb])
      s.inventory
  · have h := sortByCmp_pairwise (fun it => !(isNilValue (colValue col it)))
      (compareItems collator col .desc)
      (fun a b ha hb => by
        rw [Bool.not_eq_true'] at ha
        rw [Bool.not_eq_false'] at hb
        simp [compareItems, dirMult, ha, hb])
      (fun a b ha hb => by
        rw [Bool.not_eq_false'] at ha
        rw [Bool.not_eq_true'] at hb
        simp [compareItems, dirMult, ha, hb])
      s.inventory
    refine h.imp ?_
    intro a b hab hnila
    by_cases hb : isNilValue (colValue col b) = true
    · exact hb
    · exfalso
      have hb' : (!(isNilValue (colValue col b))) = true := by
        rw [Bool.not_eq_true']
        simpa using hb
      have ha' := hab hb'
      rw [Bool.not_eq_true'] at ha'
      rw [ha'] at hnila
      cases hnila

section SummaryLemmas

theorem mem_addTag (ts : List String) (t z : String) :
    z ∈ addTag ts t ↔ z ∈ ts ∨ z = t := by
  by_cases h : t ∈ ts
  · simp only [addTag, if_pos h]
    constructor
    · exact Or.inl
    · rintro (hz | rfl)
      · exact hz
      · exact h
  · simp [addTag, if_neg h]

theorem mem_foldl_addTag (new : List String) (ts : List String) (z : String) :
    z ∈ new.foldl addTag ts ↔ z ∈ ts ∨ z ∈ new := by
  induction new generalizing ts with
  | nil => simp
  | cons x xs ih =>
    simp only [List.foldl_cons, ih, mem_addTag, List.mem_cons]
    tauto

theorem summaryLookup_insert_self (m : List (String × Int × List String))
    (key : String) (qty : Int) (tags : List String) :
    summaryLookup (summaryInsert key qty tags m) key
      = some (baseQty (summaryLookup m key) + qty,
              tags.foldl addTag (baseTags (summaryLookup m key))) := by
  induction m with
  | nil => simp [summaryInsert, summaryLookup, baseQty, baseTags]
  | cons p rest ih =>
    obtain ⟨k, q, ts⟩ := p
    by_cases h : k = key
    · subst h
      simp [summaryInsert, summaryLookup, baseQty, baseTags]
    · simp [summaryInsert, summaryLookup, h, ih]

theorem summaryLookup_insert_other (m : List (String × Int × List String))
    (key key' : String) (qty : Int) (tags : List String) (h : key' ≠ key) :
    summaryLookup (summaryInsert key qty tags m) key' = summaryLookup m key' := by
  induction m with
  | nil => simp [summaryInsert, summaryLookup, Ne.symm h]
  | cons p rest ih =>
    obtain ⟨k, q, ts⟩ := p
    by_cases hk : k = key
    · subst hk
      simp [summaryInsert, summaryLookup, Ne.symm h]
    · by_cases hk' : k = key'
      · simp [summaryInsert, summaryLookup, hk, hk', h]
      · simp [summaryInsert, summaryLookup, hk, hk', ih]

theorem itemSummary_foldl_char (inv : List InventoryItem)
    (acc : List (String × Int × List String)) (n : String) :
    (summaryLookup
        (inv.foldl (fun a it => summaryInsert it.name it.quantity (parseTags it.tag) a) acc) n
          = none
      ↔ summaryLookup acc n = none ∧ ∀ it ∈ inv, it.name ≠ n)
    ∧ (∀ q ts, summaryLookup
        (inv.foldl (fun a it => summaryInsert it.name it.quantity (parseTags it.tag) a) acc) n
          = some (q, ts) →
        q = baseQty (summaryLookup acc n) + sumQtyByName inv n
        ∧ ∀ t, t ∈ ts ↔ t ∈ baseTags (summaryLookup acc n)
            ∨ ∃ it ∈ inv, it.name = n ∧ t ∈ parseTags it.tag) := by
  induction inv generalizing acc with
  | nil =>
    refine ⟨by simp, ?_⟩
    intro q ts h
    simp only [List.foldl_nil] at h
    rw [h]
    simp [baseQty, baseTags, sumQtyByName]
  | cons it rest ih =>
    simp only [List.foldl_cons]
    by_cases hn : it.name = n
    · subst hn
      have hself := summaryLookup_insert_self acc it.name it.quantity (parseTags it.tag)
      constructor
      · rw [(ih (summaryInsert it.name it.quantity (parseTags it.tag) acc)).1, hself]
        simp only [List.mem_cons]
        constructor
        · rintro ⟨h, -⟩
          cases h
        · rintro ⟨-, hall⟩
          exact absurd rfl (hall it (Or.inl rfl))
      · intro q ts h
        obtain ⟨hq, hts⟩ :=
          (ih (summaryInsert it.name it.quantity (parseTags it.tag) acc)).2 q ts h
        rw [hself] at hq hts
        constructor
        · rw [hq]
          simp only [baseQty, sumQtyByName, if_pos]
          omega
        · intro t
          rw [hts t]
          simp only [baseTags, mem_foldl_addTag, List.mem_cons]
          constructor
          · rintro ((hb | hp) | ⟨it', hit', hname, hmem⟩)
            · exact Or.inl hb
            · exact Or.inr ⟨it, Or.inl rfl, rfl, hp⟩
            · exact Or.inr ⟨it', Or.inr hit', hname, hmem⟩
          · rintro (hb | ⟨it', hit' | hit', hname, hmem⟩)
            · exact Or.inl (Or.inl hb)
            · subst hit'
              exact Or.inl (Or.inr hmem)
            · exact Or.inr ⟨it', hit', hname, hmem⟩
    · have hother := summaryLookup_insert_other acc it.name n it.quantity (parseTags it.tag)
        (Ne.symm hn)
      constructor
      · rw [(ih (summaryInsert it.name it.quantity (parseTags it.tag) acc)).1, hother]
        simp only [List.mem_cons]
        constructor
        · rintro ⟨hnone, hall⟩
          refine ⟨hnone, ?_⟩
          rintro it' (rfl | hit')
          · exact hn
          · exact hall it' hit'
        · rintro ⟨hnone, hall⟩
          exact ⟨hnone, fun it' hit' => hall it' (Or.inr hit')⟩
      · intro q ts h
        obtain ⟨hq, hts⟩ :=
          (ih (summaryInsert it.name it.quantity (parseTags it.tag) acc)).2 q ts h
        rw [hother] at hq hts
        constructor
        · rw [hq]
          simp only [sumQtyByName, if_neg hn]
          ring
        · intro t
          rw [hts t]
          simp only [List.mem_cons]
          constructor
          · rintro (hb | ⟨it', hit', hname, hmem⟩)
            · exact Or.inl hb
            · exact Or.inr ⟨it', Or.inr hit', hname, hmem⟩
          · rintro (hb | ⟨it', hit' | hit', hname, hmem⟩)
            · exact Or.inl hb
            · subst hit'
              exact absurd hname hn
            · exact Or.inr ⟨it', hit', hname, hmem⟩

end SummaryLemmas

/-- **C8.** `ComputeSummary` groups items by exact name: each present name's
bucket holds the summed quantity of the items with that name and exactly the
deduplicated trimmed non-empty comma-separated tag labels of those items —
names with no item get no bucket.  On the two Apple items `(5, "red")` and
`(3, "sweet, red")` it yields the single bucket
`("Apple", 8, {"red", "sweet"})` with "red" deduplicated. -/
theorem summary_groups_by_name :
    (∀ (inv : List InventoryItem) (n : String),
      ((∀ it ∈ inv, it.name ≠ n) → summaryLookup (itemSummary inv) n = none)
      ∧ (∀ q ts, summaryLookup (itemSummary inv) n = some (q, ts) →
          q = sumQtyByName inv n
          ∧ ∀ t, t ∈ ts ↔ ∃ it ∈ inv, it.name = n ∧ t ∈ parseTags it.tag)
      ∧ ((∃ it ∈ inv, it.name = n) → (summaryLookup (itemSummary inv) n).isSome = true))
    ∧ itemSummary appleList = [("Apple", 8, ["red", "sweet"])] := by
  constructor
  · intro inv n
    have hchar := itemSummary_foldl_char inv [] n
    refine ⟨?_, ?_, ?_⟩
    · intro hall
      exact hchar.1.mpr ⟨rfl, hall⟩
    · intro q ts h
      obtain ⟨hq, hts⟩ := hchar.2 q ts h
      refine ⟨?_, ?_⟩
      · rw [hq]
        simp [baseQty, summaryLookup]
      · intro t
        rw [hts t]
        simp [baseTags, summaryLookup]
    · rintro ⟨it, hit, hname⟩
      cases hsome : summaryLookup (itemSummary inv) n with
      | some v => rfl
      | none =>
        exact absurd hname ((hchar.1.mp hsome).2 it hit)
  · decide

/-- **C8 witness.** The Apple bucket of the example summary carries total
quantity 8 and both labels. -/
theorem summary_groups_by_name_witness :
    ∃ q ts, summaryLookup (itemSummary appleList) "Apple" = some (q, ts)
      ∧ q = sumQtyByName appleList "Apple"
      ∧ "red" ∈ ts ∧ "sweet" ∈ ts := by
  have h := (summary_groups_by_name.1 appleList "Apple").2.1 8 ["red", "sweet"] (by decide)
  exact ⟨8, ["red", "sweet"], by decide, h.1, by decide, by decide⟩

section SoundnessLemmas

theorem ledgerSet_key_sub (l : List (String × Int)) (k : String) (v : Int) (k' : String)
    (h : (ledgerLookup (ledgerSet l k v) k').isSome = true) :
    k' = k ∨ (ledgerLookup l k').isSome = true := by
  by_cases hk : k' = k
  · exact Or.inl hk
  · rw [ledgerLookup_set_other l k k' v hk] at h
    exact Or.inr h

theorem ledgerLookup_erase_isSome (l : List (String × Int)) (k0 k : String)
    (h : (ledgerLookup (ledgerErase l k0) k).isSome = true) :
    k ≠ k0 ∧ (ledgerLookup l k).isSome = true := by
  induction l with
  | nil => simp [ledgerErase, ledgerLookup] at h
  | cons p rest ih =>
    obtain ⟨k', v'⟩ := p
    by_cases hk : k' = k0
    · subst hk
      simp only [ledgerErase, List.filter_cons, bne_self_eq_false, if_neg,
        Bool.false_eq_true, not_false_eq_true, ite_false] at h
      have := ih (by simpa [ledgerErase] using h)
      refine ⟨this.1, ?_⟩
      simp only [ledgerLookup]
      by_cases hkk : k' = k
      · exact absurd hkk.symm this.1
      · simpa [hkk] using this.2
    · simp only [ledgerErase, List.filter_cons, bne_iff_ne, ne_eq, hk, not_false_eq_true,
        ite_true] at h
      by_cases hkk : k' = k
      · subst hkk
        refine ⟨?_, by simp [ledgerLookup]⟩
        intro hc
        exact hk hc
      · simp only [ledgerLookup, hkk, if_neg] at h
        have := ih (by simpa [ledgerErase] using h)
        refine ⟨this.1, ?_⟩
        simpa [ledgerLookup, hkk] using this.2

theorem ledgerLookup_isSome_iff (l : List (String × Int)) (k : String) :
    (ledgerLookup l k).isSome = true ↔ ∃ p ∈ l, p.1 = k := by
  constructor
  · intro h
    by_contra hc
    push_neg at hc
    rw [(ledgerLookup_eq_none_iff l k).mpr hc] at h
    cases h
  · rintro ⟨p, hp, hk⟩
    cases hlook : ledgerLookup l k with
    | some v => rfl
    | none => exact absurd hk ((ledgerLookup_eq_none_iff l k).mp hlook p hp)

theorem updateQtyAt_map_id (l : List InventoryItem) (i : Nat) (d : Int) :
    (updateQtyAt l i d).map (fun it => it.id) = l.map (fun it => it.id) := by
  induction l generalizing i with
  | nil => rfl
  | cons y ys ih =>
    cases i with
    | zero => simp [updateQtyAt]
    | succ n => simp [updateQtyAt, ih]

theorem map_id_of_id_preserving (f : InventoryItem → InventoryItem)
    (hf : ∀ it, (f it).id = it.id) (l : List InventoryItem) :
    (l.map f).map (fun it => it.id) = l.map (fun it => it.id) := by
  induction l with
  | nil => rfl
  | cons y ys ih => simp [hf, ih]

theorem addItem_sound (fid : String) (s s' : EngineState) (name : String) (qty : Int)
    (tag : Option String) (heq : handleAddItem fid s name qty tag = some s')
    (hs : LedgerKeysSound s) : LedgerKeysSound s' := by
  unfold handleAddItem at heq
  split at heq
  · cases heq
  · simp only [] at heq
    split at heq
    · split at heq
      · rename_i existingItemIndex hfind existingItem hget
        injection heq with heq
        subst heq
        intro k hk
        simp only [updateQtyAt_map_id]
        rcases ledgerSet_key_sub _ _ _ _ hk with rfl | hold
        · exact List.mem_map.mpr ⟨existingItem, List.get?_mem hget, rfl⟩
        · exact hs k hold
      · injection heq with heq
        subst heq
        exact hs
    · injection heq with heq
      subst heq
      intro k hk
      rcases ledgerSet_key_sub _ _ _ _ hk with rfl | hold
      · simp
      · simp only [List.map_append, List.mem_append]
        exact Or.inl (hs k hold)

theorem updateItem_sound (s : EngineState) (sid name : String) (qty : Int)
    (tag : Option String) (hs : LedgerKeysSound s) :
    LedgerKeysSound (handleUpdateItem s sid name qty tag) := by
  unfold handleUpdateItem
  split
  · exact hs
  · rename_i originalItem hfind
    have hp : (originalItem.id == sid) = true :=
      @List.find?_some _ (fun it => it.id == sid) originalItem s.inventory hfind
    have hpid : originalItem.id = sid := by simpa using hp
    intro k hk
    rw [map_id_of_id_preserving _ (fun it => by split <;> rfl)]
    rcases ledgerSet_key_sub _ _ _ _ hk with rfl | hold
    · exact List.mem_map.mpr ⟨originalItem, List.mem_of_find?_eq_some hfind, hpid⟩
    · exact hs k hold

theorem delete_sound (s : EngineState) (sid : String) (hs : LedgerKeysSound s) :
    LedgerKeysSound (confirmDeleteItem s sid) := by
  intro k hk
  obtain ⟨hne, hold⟩ := ledgerLookup_erase_isSome s.changes sid k hk
  obtain ⟨it, hit, hid⟩ := List.mem_map.mp (hs k hold)
  refine List.mem_map.mpr ⟨it, ?_, hid⟩
  refine List.mem_filter.mpr ⟨hit, ?_⟩
  simp only [bne_iff_ne, ne_eq, hid]
  exact hne

theorem quantityChange_sound (s : EngineState) (iid : String) (change : Int)
    (hs : LedgerKeysSound s) : LedgerKeysSound (handleQuantityChange s iid change) := by
  unfold handleQuantityChange
  split
  · exact hs
  · rename_i originalItem hfind
    have hp : (originalItem.id == iid) = true :=
      @List.find?_some _ (fun it => it.id == iid) originalItem s.inventory hfind
    have hpid : originalItem.id = iid := by simpa using hp
    intro k hk
    simp only [] at hk
    rw [map_id_of_id_preserving _ (fun it => by split <;> rfl)]
    split at hk
    · rcases ledgerSet_key_sub _ _ _ _ hk with rfl | hold
      · exact List.mem_map.mpr ⟨originalItem, List.mem_of_find?_eq_some hfind, hpid⟩
      · exact hs k hold
    · exact hs k hk

theorem mergeStep_ids_mono (acc : List InventoryItem × List (String × Int))
    (new : InventoryItem) (k : String) (h : k ∈ acc.1.map (fun it => it.id)) :
    k ∈ (mergeStep acc new).1.map (fun it => it.id) := by
  simp only [mergeStep]
  split
  · split
    · simpa [updateQtyAt_map_id] using h
    · exact h
  · simp only [List.map_append, List.mem_append]
    exact Or.inl h

theorem mergeStep_sound (acc : List InventoryItem × List (String × Int))
    (new : InventoryItem)
    (h : ∀ k, (ledgerLookup acc.2 k).isSome = true → k ∈ acc.1.map (fun it => it.id)) :
    ∀ k, (ledgerLookup (mergeStep acc new).2 k).isSome = true →
      k ∈ (mergeStep acc new).1.map (fun it => it.id) := by
  intro k hk
  simp only [mergeStep] at hk ⊢
  split at hk
  · rename_i existingIndex heqf
    try simp only [heqf]
    split at hk
    · rename_i existingItem heqg
      try simp only [heqg]
      simp only [updateQtyAt_map_id]
      rcases ledgerSet_key_sub _ _ _ _ hk with rfl | hold
      · exact List.mem_map.mpr ⟨existingItem, List.get?_mem heqg, rfl⟩
      · exact h k hold
    · rename_i heqg
      try simp only [heqg]
      exact h k hk
  · rename_i heqf
    try simp only [heqf]
    simp only [List.map_append, List.mem_append]
    rcases ledgerSet_key_sub _ _ _ _ hk with rfl | hold
    · exact Or.inr (by simp)
    · exact Or.inl (h k hold)

theorem foldl_mergeStep_sound (items : List InventoryItem)
    (acc : List InventoryItem × List (String × Int))
    (h : ∀ k, (ledgerLookup acc.2 k).isSome = true → k ∈ acc.1.map (fun it => it.id)) :
    (∀ k, k ∈ acc.1.map (fun it => it.id) →
        k ∈ (items.foldl mergeStep acc).1.map (fun it => it.id))
    ∧ (∀ k, (ledgerLookup (items.foldl mergeStep acc).2 k).isSome = true →
        k ∈ (items.foldl mergeStep acc).1.map (fun it => it.id)) := by
  induction items generalizing acc with
  | nil => exact ⟨fun k hk => hk, h⟩
  | cons x xs ih =>
    simp only [List.foldl_cons]
    have hstep := mergeStep_sound acc x h
    obtain ⟨hmono, hsound⟩ := ih (mergeStep acc x) hstep
    exact ⟨fun k hk => hmono k (mergeStep_ids_mono acc x k hk), hsound⟩

theorem applyImportChanges_keys (ch : List (String × Int)) (led : List (String × Int))
    (k : String) (h : (ledgerLookup (applyImportChanges led ch) k).isSome = true) :
    (ledgerLookup led k).isSome = true ∨ ∃ p ∈ ch, p.1 = k := by
  induction ch generalizing led with
  | nil => exact Or.inl h
  | cons p rest ih =>
    obtain ⟨k0, v0⟩ := p
    unfold applyImportChanges at h
    by_cases hc : (ledgerLookup led k0).isSome = true ∨ v0 ≠ 0
    · rw [if_pos hc] at h
      rcases ih _ h with h' | h'
      · rcases ledgerSet_key_sub _ _ _ _ h' with heq | hold
        · exact Or.inr ⟨(k0, v0), List.mem_cons_self _ _, heq.symm⟩
        · exact Or.inl hold
      · exact Or.inr (by
          obtain ⟨q, hq, hqk⟩ := h'
          exact ⟨q, List.mem_cons_of_mem _ hq, hqk⟩)
    · rw [if_neg hc] at h
      rcases ih _ h with h' | h'
      · rcases ledgerSet_key_sub _ _ _ _ h' with heq | hold
        · exact Or.inr ⟨(k0, v0), List.mem_cons_self _ _, heq.symm⟩
        · exact Or.inl hold
      · exact Or.inr (by
          obtain ⟨q, hq, hqk⟩ := h'
          exact ⟨q, List.mem_cons_of_mem _ hq, hqk⟩)

theorem importCSV_sound (fids : Nat → String) (s : EngineState) (rows : List CsvRow)
    (hs : LedgerKeysSound s) : LedgerKeysSound (handleImportCSV fids s rows) := by
  unfold handleImportCSV
  intro k hk
  simp only at hk ⊢
  have hbase : ∀ k, (ledgerLookup ([] : List (String × Int)) k).isSome = true →
      k ∈ s.inventory.map (fun it => it.id) := by
    intro k hk
    simp [ledgerLookup] at hk
  obtain ⟨hmono, hsound⟩ :=
    foldl_mergeStep_sound (rowsToItems fids 0 (rows.filter rowValid)) (s.inventory, []) hbase
  rcases applyImportChanges_keys _ _ _ hk with h | h
  · exact hmono k (hs k h)
  · exact hsound k ((ledgerLookup_isSome_iff _ _).mpr h)

theorem reachable_ledger_keys_sound (s : EngineState) (h : Reachable s) :
    LedgerKeysSound s := by
  induction h with
  | refl =>
    intro k hk
    simp [initialState, ledgerLookup] at hk
  | @tail b c hab hbc ih =>
    cases hbc with
    | add fid name tag s s' qty heq => exact addItem_sound fid b c name qty tag heq ih
    | edit sid name tag s qty hq => exact updateItem_sound b sid name qty tag ih
    | delete sid s => exact delete_sound b sid ih
    | adjust iid s change => exact quantityChange_sound b iid change ih
    | importCsv fids s rows => exact importCSV_sound fids b rows ih

end SoundnessLemmas

/-- **C7.** In every reachable state, `Delete(id)` removes exactly the items
with the matching id and the id's ledger entry; when no item carries the id,
the state is returned unchanged (in reachable states the ledger then has no
entry for it either), so a second `Delete(id)` after a successful one is a
no-op — deletion is idempotent. -/
theorem delete_removes_and_is_idempotent (s : EngineState) (i : String)
    (h : Reachable s) :
    (∀ it ∈ (confirmDeleteItem s i).inventory, it.id ≠ i)
    ∧ (∀ it ∈ s.inventory, it.id ≠ i → it ∈ (confirmDeleteItem s i).inventory)
    ∧ ledgerLookup (confirmDeleteItem s i).changes i = none
    ∧ ((∀ it ∈ s.inventory, it.id ≠ i) → confirmDeleteItem s i = s)
    ∧ confirmDeleteItem (confirmDeleteItem s i) i = confirmDeleteItem s i := by
  refine ⟨?_, ?_, ?_, ?_, ?_⟩
  · intro it hit
    have := (List.mem_filter.mp hit).2
    simpa using this
  · intro it hit hne
    refine List.mem_filter.mpr ⟨hit, ?_⟩
    simpa using hne
  · exact ledgerLookup_erase_self s.changes i
  · intro hall
    have h1 : s.inventory.filter (fun it => it.id != i) = s.inventory := by
      rw [List.filter_eq_self]
      intro it hit
      simpa using hall it hit
    have hnone : ledgerLookup s.changes i = none := by
      cases hlk : ledgerLookup s.changes i with
      | none => rfl
      | some v =>
        exfalso
        have hsome : (ledgerLookup s.changes i).isSome = true := by rw [hlk]; rfl
        obtain ⟨it, hit, hid⟩ := List.mem_map.mp (reachable_ledger_keys_sound s h i hsome)
        exact hall it hit hid
    have h2 : ledgerErase s.changes i = s.changes := ledgerErase_of_absent _ _ hnone
    unfold confirmDeleteItem
    rw [h1, h2]
  · unfold confirmDeleteItem
    have h1 : (s.inventory.filter (fun it => it.id != i)).filter (fun it => it.id != i)
        = s.inventory.filter (fun it => it.id != i) := by
      rw [List.filter_eq_self]
      intro it hit
      exact (List.mem_filter.mp hit).2
    rw [h1, ledgerErase_idem]

/-- **C7 witness.** Deleting from the (reachable) initial state is a no-op. -/
theorem delete_removes_and_is_idempotent_witness :
    confirmDeleteItem initialState "a" = initialState :=
  (delete_removes_and_is_idempotent initialState "a" Relation.ReflTransGen.refl).2.2.2.1
    (fun it hit => absurd hit (List.not_mem_nil it))
